import Mathlib

/-!
Verification of the sheet/projection model-specification engine of
`topo/submodel/__init__.py`.

The Python code is shallowly embedded: Python dicts become association
lists built with an overwrite-on-duplicate insert (`dictInsert`), Python
property values (strings or integers) become `PVal`, Python `str()`
becomes `strVal`, KeyError/exception paths become `Option`.
-/

namespace TopoSubmodel

/-- A Python property value as used in sheet properties, matchcondition
criteria and specification parameters: either a string or an integer. -/
inductive PVal where
  | s : String → PVal
  | i : Int → PVal
deriving DecidableEq

/-- Python `str()` applied to a property value. -/
def strVal : PVal → String
  | .s v => v
  | .i n => toString n

/-- Lookup in a Python dict modelled as an association list: the value of
the first matching key (association lists built with `dictInsert` have
unique keys, so this is the dict lookup `d[k]`; `none` models `KeyError`). -/
def dictLookup {α : Type} (l : List (String × α)) (k : String) : Option α :=
  match l with
  | [] => none
  | (k2, v) :: rest => if k2 = k then some v else dictLookup rest k

/-- Python dict assignment `d[k] = v`: overwrite the value in place if the
key is present, otherwise append the binding at the end (insertion order). -/
def dictInsert {α : Type} (l : List (String × α)) (k : String) (v : α) :
    List (String × α) :=
  match l with
  | [] => [(k, v)]
  | (k2, v2) :: rest =>
    if k2 = k then (k2, v) :: rest else (k2, v2) :: dictInsert rest k v

/-- Fold a list of bindings into a dict with `dictInsert` (models building
a Python dict from a sequence of key/value pairs, later pairs winning). -/
def dictOf {α : Type} (d0 : List (String × α)) (l : List (String × α)) :
    List (String × α) :=
  l.foldl (fun d kv => dictInsert d kv.1 kv.2) d0

/-- `startsWithL needle hay` is true when `needle` is an initial segment
of `hay`. -/
def startsWithL : List Char → List Char → Bool
  | [], _ => true
  | _ :: _, [] => false
  | a :: as, b :: bs => a = b && startsWithL as bs

/-- `occursIn needle hay`: Python's substring containment test
`needle in hay` on strings, over the underlying character lists. -/
def occursIn (needle : List Char) : List Char → Bool
  | [] => startsWithL needle []
  | b :: bs => startsWithL needle (b :: bs) || occursIn needle bs

/-- Python `a in b` for strings `a`, `b`. -/
def strIn (a b : String) : Bool := occursIn a.data b.data

theorem startsWithL_iff (n h : List Char) :
    startsWithL n h = true ↔ ∃ rest, h = n ++ rest := by
  induction n generalizing h with
  | nil => simp [startsWithL]
  | cons a as ih =>
    cases h with
    | nil =>
      simp [startsWithL]
    | cons b bs =>
      simp only [startsWithL, Bool.and_eq_true, decide_eq_true_eq, ih]
      constructor
      · rintro ⟨rfl, rest, rfl⟩
        exact ⟨rest, rfl⟩
      · rintro ⟨rest, hr⟩
        cases hr
        exact ⟨rfl, rest, rfl⟩

theorem occursIn_iff (n h : List Char) :
    occursIn n h = true ↔ ∃ pre post, h = pre ++ n ++ post := by
  induction h with
  | nil =>
    simp only [occursIn, startsWithL_iff]
    constructor
    · rintro ⟨rest, hr⟩
      exact ⟨[], rest, by simpa using hr⟩
    · rintro ⟨pre, post, hr⟩
      obtain ⟨h1, h2⟩ := List.append_eq_nil.mp hr.symm
      obtain ⟨h3, h4⟩ := List.append_eq_nil.mp h1
      exact ⟨[], by simp [h4]⟩
  | cons b bs ih =>
    simp only [occursIn, Bool.or_eq_true, startsWithL_iff, ih]
    constructor
    · rintro (⟨rest, hr⟩ | ⟨pre, post, hr⟩)
      · exact ⟨[], rest, by simpa using hr⟩
      · exact ⟨b :: pre, post, by simp [hr]⟩
    · rintro ⟨pre, post, hr⟩
      cases pre with
      | nil => exact Or.inl ⟨post, by simpa using hr⟩
      | cons p ps =>
        have h' : b :: bs = p :: (ps ++ n ++ post) := by simpa using hr
        obtain ⟨-, h2⟩ := List.cons_eq_cons.mp h'
        exact Or.inr ⟨ps, post, h2⟩

/-- A runtime sheet/projection type as seen by the engine: a name and the
ordered mapping of declared parameter names to their default values
(`object_type.params()` in the source). -/
structure TypeTag where
  name : String
  declared_params : List (String × PVal)
deriving DecidableEq

/-- `Specification.__init__`: `parameters` is seeded from the target
type's declared parameter defaults and `default_parameters` is a copy of
that seed; `sort_precedence` starts at 0. -/
structure Specification where
  parameters : List (String × PVal)
  default_parameters : List (String × PVal)
  sort_precedence : Nat
deriving DecidableEq

def specInit (object_type : TypeTag) : Specification :=
  { parameters := dictOf [] object_type.declared_params
    default_parameters := dictOf [] object_type.declared_params
    sort_precedence := 0 }

/-- `Specification.update(**params)`: merge the given bindings into
`parameters`, leaving all other keys untouched. -/
def specUpdate (s : Specification) (ps : List (String × PVal)) : Specification :=
  { s with parameters := dictOf s.parameters ps }

/-- `Specification.modified_parameters`: the sub-dict of `parameters`
whose values differ from the recorded defaults. Indexing
`default_parameters[k]` raises `KeyError` when `k` is missing, modelled
by `none`. -/
def modParams (defaults : List (String × PVal)) :
    List (String × PVal) → Option (List (String × PVal))
  | [] => some []
  | (k, v) :: rest =>
    match dictLookup defaults k with
    | none => none
    | some d =>
      match modParams defaults rest with
      | none => none
      | some acc => some (if d ≠ v then (k, v) :: acc else acc)

/-- `Specification.__eq__`: equality compares `sort_precedence` only. -/
def specEq (a b : Specification) : Bool := a.sort_precedence = b.sort_precedence

/-- `Specification.__lt__`: ordering compares `sort_precedence` only. -/
def specLt (a b : Specification) : Bool := a.sort_precedence < b.sort_precedence

/-- `SheetSpec.name_ordering`: the fixed canonical key order from which a
sheet's name is derived. -/
def name_ordering : List String :=
  ["eye", "level", "cone", "polarity", "SF", "opponent", "surround"]

/-- `SheetSpec`: a `Specification` plus the sheet type and the
canonically-ordered properties. -/
structure SheetSpec extends Specification where
  sheet_type : TypeTag
  properties : List (String × PVal)
deriving DecidableEq

/-- `SheetSpec.__init__`: requires the `level` property (exception
modelled by `none`); `properties` is the caller-supplied mapping filtered
and reordered by `name_ordering`. -/
def sheetSpecInit (sheet_type : TypeTag) (properties : List (String × PVal)) :
    Option SheetSpec :=
  if (dictLookup properties "level").isSome then
    some { toSpecification := specInit sheet_type
           sheet_type := sheet_type
           properties := name_ordering.filterMap
             (fun k => (dictLookup properties k).map (fun v => (k, v))) }
  else none

/-- `SheetSpec.__str__`: concatenation of the string forms of the
property values, in canonical (stored) order. -/
def sheetSpecStr (s : SheetSpec) : String :=
  s.properties.foldl (fun acc kv => acc ++ strVal kv.2) ""

/-- `SheetSpec.level`: the value of the `level` property (always present
for sheets built through `sheetSpecInit`). -/
def sheetLevel (s : SheetSpec) : String :=
  strVal ((dictLookup s.properties "level").getD (PVal.s ""))

def sheetUpdate (s : SheetSpec) (ps : List (String × PVal)) : SheetSpec :=
  { s with toSpecification := specUpdate s.toSpecification ps }

/-- `ProjectionSpec`: a `Specification` plus projection type, source and
destination sheets, and the `matchname` tag attached during projection
computation. -/
structure ProjectionSpec extends Specification where
  projection_type : TypeTag
  src : SheetSpec
  dest : SheetSpec
  matchname : String
deriving DecidableEq

/-- `ProjectionSpec.__init__`: the `src`/`dest` keys are removed from
`parameters` (they are passed positionally to `topo.sim.connect`);
`default_parameters` is left unfiltered, exactly as in the source. -/
def projSpecInit (projection_type : TypeTag) (src dest : SheetSpec) :
    ProjectionSpec :=
  let base := specInit projection_type
  { toSpecification :=
      { base with parameters :=
          base.parameters.filter (fun kv => kv.1 ∉ ["src", "dest"]) }
    projection_type := projection_type
    src := src
    dest := dest
    matchname := "" }

def projUpdate (p : ProjectionSpec) (ps : List (String × PVal)) : ProjectionSpec :=
  { p with toSpecification := specUpdate p.toSpecification ps }

/-- `ProjectionSpec.__str__`: destination name, a dot, then the `name`
parameter (`KeyError`, i.e. `none`, when `name` was never supplied). -/
def projSpecStr (p : ProjectionSpec) : Option String :=
  (dictLookup p.parameters "name").map
    (fun n => sheetSpecStr p.dest ++ "." ++ strVal n)

/-- `Model._matchcondition_holds(matchconditions, src_sheet)`: `False`
when the criteria dict is `None`; otherwise `False` exactly when some
criteria key also occurs in the source sheet's properties and the string
form of the source's value is not a substring of the string form of the
criteria's value. -/
def matchconditionHolds (matchconditions : Option (List (String × PVal)))
    (src_sheet : SheetSpec) : Bool :=
  match matchconditions with
  | none => false
  | some conds =>
    conds.all (fun kv =>
      match dictLookup src_sheet.properties kv.1 with
      | none => true
      | some v => strIn (strVal v) (strVal kv.2))

/-- A parameterless concrete sheet type used for concrete test sheets. -/
def plainSheetType : TypeTag := ⟨"Sheet", []⟩

/-- C1: `matchcondition_holds` returns false on `None` criteria, true on
an empty criteria mapping, and otherwise true iff for every criteria key
that also appears in the source sheet's properties, the string form of
the source's property value is a substring of the string form of the
criteria's value (criteria keys absent from the source's properties are
vacuously satisfied). -/
theorem matchcondition_holds_characterisation
    (conds : List (String × PVal)) (src : SheetSpec) :
    matchconditionHolds none src = false ∧
    matchconditionHolds (some []) src = true ∧
    (matchconditionHolds (some conds) src = true ↔
      ∀ kv ∈ conds, ∀ v, dictLookup src.properties kv.1 = some v →
        ∃ pre post : List Char,
          (strVal kv.2).data = pre ++ (strVal v).data ++ post) := by
  refine ⟨rfl, rfl, ?_⟩
  simp only [matchconditionHolds, List.all_eq_true]
  constructor
  · intro h kv hm v hv
    have hkv := h kv hm
    rw [hv] at hkv
    simp only [strIn] at hkv
    exact (occursIn_iff _ _).mp hkv
  · intro h kv hm
    cases heq : dictLookup src.properties kv.1 with
    | none => rfl
    | some v => exact (occursIn_iff _ _).mpr (h kv hm v heq)

/-- C4, counterexample: contrary to the claim, for criteria
`{"polarity": "On"}` a source sheet with properties
`{"polarity": "OnOff"}` does NOT match: `"OnOff"` is not a substring of
`"On"` (the test checks the source's value against the criteria's value,
not the reverse). -/
theorem matchcondition_OnOff_cex :
    (sheetSpecInit plainSheetType
        [("level", PVal.s "LGN"), ("polarity", PVal.s "OnOff")]).map
      (fun sp => matchconditionHolds (some [("polarity", PVal.s "On")]) sp)
      = some false := by decide

/-- C4, amended: for criteria `{"polarity": "On"}` both a source with
properties `{"polarity": "OnOff"}` and one with `{"polarity": "Off"}`
fail the match; the substring test runs from source value to criteria
value, so the reversed criteria `{"polarity": "OnOff"}` does accept a
source with `{"polarity": "On"}` (substring test, not equality). -/
theorem matchcondition_polarity_examples :
    ((sheetSpecInit plainSheetType
        [("level", PVal.s "LGN"), ("polarity", PVal.s "OnOff")]).map
      (fun sp => matchconditionHolds (some [("polarity", PVal.s "On")]) sp)
      = some false) ∧
    ((sheetSpecInit plainSheetType
        [("level", PVal.s "LGN"), ("polarity", PVal.s "Off")]).map
      (fun sp => matchconditionHolds (some [("polarity", PVal.s "On")]) sp)
      = some false) ∧
    ((sheetSpecInit plainSheetType
        [("level", PVal.s "LGN"), ("polarity", PVal.s "On")]).map
      (fun sp => matchconditionHolds (some [("polarity", PVal.s "OnOff")]) sp)
      = some true) := by decide

/-- C9: specification equality (inherited by both `SheetSpec` and
`ProjectionSpec`) compares only `sort_precedence` — two specifications
with arbitrary (possibly entirely different) types, properties and
parameters are equal exactly when their precedences coincide, and
`<` compares precedences likewise. -/
theorem spec_eq_sort_precedence_only (a b : SheetSpec) (p q : ProjectionSpec) :
    (specEq a.toSpecification b.toSpecification = true ↔
      a.sort_precedence = b.sort_precedence) ∧
    (specEq p.toSpecification q.toSpecification = true ↔
      p.sort_precedence = q.sort_precedence) ∧
    (specLt a.toSpecification b.toSpecification = true ↔
      a.sort_precedence < b.sort_precedence) ∧
    (specLt p.toSpecification q.toSpecification = true ↔
      p.sort_precedence < q.sort_precedence) := by
  simp [specEq, specLt]

section DictLemmas

variable {α : Type}

theorem dictInsert_cons_self (rest : List (String × α)) (k : String) (v2 v : α) :
    dictInsert ((k, v2) :: rest) k v = (k, v) :: rest := by
  simp [dictInsert]

theorem dictInsert_cons_ne (rest : List (String × α)) (k2 k : String) (v2 v : α)
    (h : k2 ≠ k) :
    dictInsert ((k2, v2) :: rest) k v = (k2, v2) :: dictInsert rest k v := by
  simp [dictInsert, h]

theorem dictLookup_dictInsert_self (l : List (String × α)) (k : String) (v : α) :
    dictLookup (dictInsert l k v) k = some v := by
  induction l with
  | nil => simp [dictInsert, dictLookup]
  | cons kv rest ih =>
    obtain ⟨k2, v2⟩ := kv
    by_cases h : k2 = k
    · simp [dictInsert, dictLookup, h]
    · simp [dictInsert, dictLookup, h, ih]

theorem dictLookup_dictInsert_ne (l : List (String × α)) (k k' : String) (v : α)
    (h : k' ≠ k) : dictLookup (dictInsert l k v) k' = dictLookup l k' := by
  have h' : k ≠ k' := Ne.symm h
  induction l with
  | nil => simp [dictInsert, dictLookup, h']
  | cons kv rest ih =>
    obtain ⟨k2, v2⟩ := kv
    by_cases h2 : k2 = k
    · subst h2
      simp [dictInsert, dictLookup, h']
    · by_cases h3 : k2 = k'
      · simp [dictInsert, dictLookup, h2, h3, h]
      · simp [dictInsert, dictLookup, h2, h3, ih]

theorem mem_of_dictLookup_eq_some {l : List (String × α)} {k : String} {v : α}
    (h : dictLookup l k = some v) : (k, v) ∈ l := by
  induction l with
  | nil => simp [dictLookup] at h
  | cons kv rest ih =>
    obtain ⟨k2, v2⟩ := kv
    by_cases h2 : k2 = k
    · subst h2
      simp [dictLookup] at h
      subst h
      exact List.mem_cons_self _ _
    · simp only [dictLookup, if_neg h2] at h
      exact List.mem_cons_of_mem _ (ih h)

theorem dictLookup_isSome_iff_mem_keys (l : List (String × α)) (k : String) :
    (dictLookup l k).isSome = true ↔ k ∈ l.map Prod.fst := by
  induction l with
  | nil => simp [dictLookup]
  | cons kv rest ih =>
    obtain ⟨k2, v2⟩ := kv
    by_cases h2 : k2 = k
    · subst h2
      simp [dictLookup]
    · simp [dictLookup, h2, ih, Ne.symm h2]

theorem mem_keys_dictInsert (l : List (String × α)) (k k' : String) (v : α) :
    k' ∈ (dictInsert l k v).map Prod.fst ↔ k' = k ∨ k' ∈ l.map Prod.fst := by
  induction l with
  | nil => simp [dictInsert]
  | cons kv rest ih =>
    obtain ⟨k2, v2⟩ := kv
    by_cases h2 : k2 = k
    · subst h2
      rw [dictInsert_cons_self]
      simp only [List.map_cons, List.mem_cons]
      tauto
    · rw [dictInsert_cons_ne _ _ _ _ _ h2]
      simp only [List.map_cons, List.mem_cons, ih]
      tauto

theorem nodup_keys_dictInsert (l : List (String × α)) (k : String) (v : α)
    (h : (l.map Prod.fst).Nodup) : ((dictInsert l k v).map Prod.fst).Nodup := by
  induction l with
  | nil => simp [dictInsert]
  | cons kv rest ih =>
    obtain ⟨k2, v2⟩ := kv
    simp only [List.map_cons, List.nodup_cons] at h
    by_cases h2 : k2 = k
    · subst h2
      simpa [dictInsert] using h
    · simp only [dictInsert, if_neg h2, List.map_cons, List.nodup_cons]
      refine ⟨?_, ih h.2⟩
      rw [mem_keys_dictInsert]
      rintro (rfl | hmem)
      · exact h2 rfl
      · exact h.1 hmem

theorem dictLookup_of_mem_of_nodup {l : List (String × α)} {k : String} {v : α}
    (hnd : (l.map Prod.fst).Nodup) (hmem : (k, v) ∈ l) :
    dictLookup l k = some v := by
  induction l with
  | nil => simp at hmem
  | cons kv rest ih =>
    obtain ⟨k2, v2⟩ := kv
    simp only [List.map_cons, List.nodup_cons] at hnd
    rcases List.mem_cons.mp hmem with heq | hmem2
    · cases heq
      simp [dictLookup]
    · have hne : k2 ≠ k := by
        rintro rfl
        exact hnd.1 (List.mem_map.mpr ⟨(k2, v), hmem2, rfl⟩)
      simp [dictLookup, hne, ih hnd.2 hmem2]

theorem dictInsert_of_lookup_eq {l : List (String × α)} {k : String} {v : α}
    (h : dictLookup l k = some v) : dictInsert l k v = l := by
  induction l with
  | nil => simp [dictLookup] at h
  | cons kv rest ih =>
    obtain ⟨k2, v2⟩ := kv
    by_cases h2 : k2 = k
    · subst h2
      simp [dictLookup] at h
      simp [dictInsert, h]
    · simp only [dictLookup, if_neg h2] at h
      simp [dictInsert, h2, ih h]

theorem mem_keys_dictOf (d0 : List (String × α)) (l : List (String × α)) (k : String) :
    k ∈ (dictOf d0 l).map Prod.fst ↔ k ∈ d0.map Prod.fst ∨ k ∈ l.map Prod.fst := by
  induction l generalizing d0 with
  | nil => simp [dictOf]
  | cons kv rest ih =>
    obtain ⟨k2, v2⟩ := kv
    have : dictOf d0 ((k2, v2) :: rest) = dictOf (dictInsert d0 k2 v2) rest := rfl
    rw [this, ih, mem_keys_dictInsert]
    simp only [List.map_cons, List.mem_cons]
    tauto

end DictLemmas

section ModifiedParameters

theorem modParams_eq_filter (defaults : List (String × PVal)) :
    ∀ l : List (String × PVal),
      (∀ kv ∈ l, (dictLookup defaults kv.1).isSome = true) →
      modParams defaults l =
        some (l.filter (fun kv => decide (dictLookup defaults kv.1 ≠ some kv.2)))
  | [], _ => rfl
  | (k, v) :: rest, h => by
    have hk : (dictLookup defaults k).isSome = true := h (k, v) (List.mem_cons_self _ _)
    obtain ⟨d, hd⟩ := Option.isSome_iff_exists.mp hk
    have hrest := modParams_eq_filter defaults rest
      (fun kv hm => h kv (List.mem_cons_of_mem _ hm))
    simp only [modParams, hd, hrest, List.filter_cons]
    by_cases hdv : d = v
    · subst hdv
      simp [hd]
    · simp [hd, hdv]

theorem modParams_none_of_missing (defaults : List (String × PVal))
    {l : List (String × PVal)} {k : String} {v : PVal}
    (hmem : (k, v) ∈ l) (hmiss : dictLookup defaults k = none) :
    modParams defaults l = none := by
  induction l with
  | nil => simp at hmem
  | cons kv rest ih =>
    obtain ⟨k2, v2⟩ := kv
    rcases List.mem_cons.mp hmem with heq | hm2
    · cases heq
      simp [modParams, hmiss]
    · simp only [modParams]
      cases h2 : dictLookup defaults k2 with
      | none => rfl
      | some d => rw [ih hm2]

theorem modParams_isSome_iff (defaults : List (String × PVal))
    (l : List (String × PVal)) :
    (modParams defaults l).isSome = true ↔
      ∀ kv ∈ l, (dictLookup defaults kv.1).isSome = true := by
  induction l with
  | nil => simp [modParams]
  | cons kv rest ih =>
    obtain ⟨k, v⟩ := kv
    simp only [modParams]
    cases h2 : dictLookup defaults k with
    | none => simp [h2]
    | some d =>
      cases h3 : modParams defaults rest with
      | none =>
        simp only [h3] at ih
        simp only [Option.isSome_none, Bool.false_eq_true, false_iff, not_forall] at ih
        simp only [Option.isSome_none, Bool.false_eq_true, false_iff, not_forall]
        obtain ⟨kv2, hm, hns⟩ := ih
        exact ⟨kv2, List.mem_cons_of_mem _ hm, hns⟩
      | some acc =>
        simp only [h3, Option.isSome_some, true_iff] at ih
        simp only [Option.isSome_some, true_iff, List.mem_cons]
        rintro kv2 (rfl | hm)
        · simp [h2]
        · exact ih kv2 hm

end ModifiedParameters

/-- Fold of `Specification.update` calls over a specification. -/
def applyUpdates (s : Specification) : List (List (String × PVal)) → Specification
  | [] => s
  | u :: us => applyUpdates (specUpdate s u) us

theorem applyUpdates_default_parameters (s : Specification)
    (us : List (List (String × PVal))) :
    (applyUpdates s us).default_parameters = s.default_parameters := by
  induction us generalizing s with
  | nil => rfl
  | cons u us ih => simpa [applyUpdates] using ih (specUpdate s u)

theorem applyUpdates_keys (D : List String) (s : Specification)
    (us : List (List (String × PVal)))
    (hs : ∀ k, k ∈ s.parameters.map Prod.fst → k ∈ D)
    (hus : ∀ u ∈ us, ∀ kv ∈ u, kv.1 ∈ D) :
    ∀ k, k ∈ (applyUpdates s us).parameters.map Prod.fst → k ∈ D := by
  induction us generalizing s with
  | nil => exact hs
  | cons u us ih =>
    refine ih (specUpdate s u) ?_ (fun u2 hm => hus u2 (List.mem_cons_of_mem _ hm))
    intro k hk
    rcases (mem_keys_dictOf s.parameters u k).mp hk with h1 | h2
    · exact hs k h1
    · obtain ⟨kv, hkvm, hkve⟩ := List.mem_map.mp h2
      exact hkve ▸ hus u (List.mem_cons_self _ _) kv hkvm

/-- C7: for a specification built from a target type and then updated any
number of times with keys among the declared parameters,
`modified_parameters` is exactly the sub-mapping of `parameters` whose
values differ from the recorded defaults; it is empty right after
construction, and an update re-assigning a parameter its current
(e.g. default) value leaves the specification — hence the diff —
unchanged. -/
theorem modified_parameters_diff (object_type : TypeTag)
    (updates : List (List (String × PVal)))
    (hkeys : ∀ u ∈ updates, ∀ kv ∈ u,
      kv.1 ∈ object_type.declared_params.map Prod.fst) :
    modParams (specInit object_type).default_parameters
        (specInit object_type).parameters = some [] ∧
    modParams (applyUpdates (specInit object_type) updates).default_parameters
        (applyUpdates (specInit object_type) updates).parameters =
      some ((applyUpdates (specInit object_type) updates).parameters.filter
        (fun kv =>
          decide (dictLookup (applyUpdates (specInit object_type)
            updates).default_parameters kv.1 ≠ some kv.2))) ∧
    (∀ s : Specification, ∀ k : String, ∀ d : PVal,
      dictLookup s.parameters k = some d → specUpdate s [(k, d)] = s) := by
  have hnodup : (((specInit object_type).parameters).map Prod.fst).Nodup := by
    show ((dictOf [] object_type.declared_params).map Prod.fst).Nodup
    rw [show dictOf [] object_type.declared_params =
      List.foldl (fun d kv => dictInsert d kv.1 kv.2) [] object_type.declared_params
      from rfl]
    generalize object_type.declared_params = ps
    have : ∀ (d0 : List (String × PVal)), (d0.map Prod.fst).Nodup →
        ((List.foldl (fun d kv => dictInsert d kv.1 kv.2) d0 ps).map Prod.fst).Nodup := by
      induction ps with
      | nil => intro d0 h; simpa using h
      | cons kv rest ih =>
        intro d0 h
        exact ih (dictInsert d0 kv.1 kv.2) (nodup_keys_dictInsert _ _ _ h)
    simpa using this [] (by simp)
  have hsame : (specInit object_type).default_parameters =
      (specInit object_type).parameters := rfl
  refine ⟨?_, ?_, ?_⟩
  · rw [modParams_eq_filter]
    · congr 1
      rw [List.filter_eq_nil_iff]
      intro kv hm
      have : dictLookup (specInit object_type).default_parameters kv.1 = some kv.2 := by
        rw [hsame]
        exact dictLookup_of_mem_of_nodup hnodup hm
      simp [this]
    · intro kv hm
      rw [hsame, dictLookup_of_mem_of_nodup hnodup hm]
      rfl
  · apply modParams_eq_filter
    intro kv hm
    rw [applyUpdates_default_parameters, hsame, dictLookup_isSome_iff_mem_keys]
    refine applyUpdates_keys ((specInit object_type).parameters.map Prod.fst)
      (specInit object_type) updates (fun k hk => hk) ?_ kv.1
      (List.mem_map.mpr ⟨kv, hm, rfl⟩)
    intro u hu kv2 hkv2
    have := hkeys u hu kv2 hkv2
    rw [show (specInit object_type).parameters =
      dictOf [] object_type.declared_params from rfl, mem_keys_dictOf]
    simp [this]
  · intro s k d hlook
    show ({ s with parameters := dictOf s.parameters [(k, d)] } : Specification) = s
    have : dictOf s.parameters [(k, d)] = s.parameters := by
      show dictInsert s.parameters k d = s.parameters
      exact dictInsert_of_lookup_eq hlook
    rw [this]

/-- Witness for C7 at a concrete type with declared parameters
`a = 1, b = 2` and updates `a := 5` then `a := 1`. -/
theorem modified_parameters_diff_witness :
    modParams (specInit ⟨"T", [("a", PVal.i 1), ("b", PVal.i 2)]⟩).default_parameters
        (specInit ⟨"T", [("a", PVal.i 1), ("b", PVal.i 2)]⟩).parameters = some [] ∧
    modParams (applyUpdates (specInit ⟨"T", [("a", PVal.i 1), ("b", PVal.i 2)]⟩)
          [[("a", PVal.i 5)], [("a", PVal.i 1)]]).default_parameters
        (applyUpdates (specInit ⟨"T", [("a", PVal.i 1), ("b", PVal.i 2)]⟩)
          [[("a", PVal.i 5)], [("a", PVal.i 1)]]).parameters =
      some ((applyUpdates (specInit ⟨"T", [("a", PVal.i 1), ("b", PVal.i 2)]⟩)
          [[("a", PVal.i 5)], [("a", PVal.i 1)]]).parameters.filter
        (fun kv =>
          decide (dictLookup (applyUpdates (specInit ⟨"T", [("a", PVal.i 1), ("b", PVal.i 2)]⟩)
            [[("a", PVal.i 5)], [("a", PVal.i 1)]]).default_parameters kv.1 ≠ some kv.2))) :=
  ⟨(modified_parameters_diff ⟨"T", [("a", PVal.i 1), ("b", PVal.i 2)]⟩
      [[("a", PVal.i 5)], [("a", PVal.i 1)]] (by decide)).1,
   (modified_parameters_diff ⟨"T", [("a", PVal.i 1), ("b", PVal.i 2)]⟩
      [[("a", PVal.i 5)], [("a", PVal.i 1)]] (by decide)).2.1⟩

/-- C10: `update` accepts a key absent from the declared parameters; the
key lands in `parameters`, after which `modified_parameters` raises
`KeyError` (modelled as `none`); in general the diff succeeds exactly
when every key of `parameters` is also a key of `default_parameters`. -/
theorem update_undeclared_key_breaks_modified (s : Specification)
    (k : String) (v : PVal)
    (h : dictLookup s.default_parameters k = none) :
    dictLookup (specUpdate s [(k, v)]).parameters k = some v ∧
    modParams (specUpdate s [(k, v)]).default_parameters
      (specUpdate s [(k, v)]).parameters = none ∧
    (∀ ps : List (String × PVal),
      (modParams s.default_parameters ps).isSome = true ↔
        ∀ kv ∈ ps, (dictLookup s.default_parameters kv.1).isSome = true) := by
  have hup : (specUpdate s [(k, v)]).parameters = dictInsert s.parameters k v := rfl
  have hdef : (specUpdate s [(k, v)]).default_parameters = s.default_parameters := rfl
  refine ⟨?_, ?_, fun ps => modParams_isSome_iff _ ps⟩
  · rw [hup]
    exact dictLookup_dictInsert_self _ _ _
  · rw [hup, hdef]
    have hmem : (k, v) ∈ dictInsert s.parameters k v :=
      mem_of_dictLookup_eq_some (dictLookup_dictInsert_self s.parameters k v)
    exact modParams_none_of_missing _ hmem h

/-- Witness for C10: a specification over a type declaring only `a`,
updated with the undeclared key `x`. -/
theorem update_undeclared_key_breaks_modified_witness :
    dictLookup (specUpdate (specInit ⟨"T", [("a", PVal.i 1)]⟩)
      [("x", PVal.i 7)]).parameters "x" = some (PVal.i 7) ∧
    modParams (specUpdate (specInit ⟨"T", [("a", PVal.i 1)]⟩)
        [("x", PVal.i 7)]).default_parameters
      (specUpdate (specInit ⟨"T", [("a", PVal.i 1)]⟩)
        [("x", PVal.i 7)]).parameters = none :=
  ⟨(update_undeclared_key_breaks_modified (specInit ⟨"T", [("a", PVal.i 1)]⟩)
      "x" (PVal.i 7) (by decide)).1,
   (update_undeclared_key_breaks_modified (specInit ⟨"T", [("a", PVal.i 1)]⟩)
      "x" (PVal.i 7) (by decide)).2.1⟩

section SheetName

theorem sheetSpecInit_properties {ty : TypeTag} {p : List (String × PVal)}
    {s : SheetSpec} (h : sheetSpecInit ty p = some s) :
    s.properties =
      name_ordering.filterMap (fun k => (dictLookup p k).map (fun v => (k, v))) := by
  unfold sheetSpecInit at h
  by_cases hl : (dictLookup p "level").isSome
  · rw [if_pos hl, Option.some.injEq] at h
    rw [← h]
  · rw [if_neg hl] at h
    exact absurd h (by simp)

theorem sheetSpecStr_eq_join (s : SheetSpec) :
    sheetSpecStr s = String.join (s.properties.map (fun kv => strVal kv.2)) := by
  show List.foldl (fun acc kv => acc ++ strVal kv.2) "" s.properties = _
  rw [String.join, List.foldl_map]

theorem dictLookup_perm {l1 l2 : List (String × PVal)} (hperm : l1.Perm l2)
    (hnd : (l1.map Prod.fst).Nodup) (k : String) :
    dictLookup l1 k = dictLookup l2 k := by
  have hnd2 : (l2.map Prod.fst).Nodup := ((hperm.map Prod.fst).nodup_iff).mp hnd
  cases h1 : dictLookup l1 k with
  | some v =>
    exact (dictLookup_of_mem_of_nodup hnd2
      (hperm.mem_iff.mp (mem_of_dictLookup_eq_some h1))).symm
  | none =>
    cases h2 : dictLookup l2 k with
    | none => rfl
    | some v =>
      have : (k, v) ∈ l1 := hperm.mem_iff.mpr (mem_of_dictLookup_eq_some h2)
      rw [dictLookup_of_mem_of_nodup hnd this] at h1
      exact absurd h1 (by simp)

theorem sheet_name_agree {ty : TypeTag} {p1 p2 : List (String × PVal)}
    {s1 s2 : SheetSpec}
    (hagree : ∀ k ∈ name_ordering, dictLookup p1 k = dictLookup p2 k)
    (h1 : sheetSpecInit ty p1 = some s1) (h2 : sheetSpecInit ty p2 = some s2) :
    sheetSpecStr s1 = sheetSpecStr s2 := by
  rw [sheetSpecStr_eq_join, sheetSpecStr_eq_join,
    sheetSpecInit_properties h1, sheetSpecInit_properties h2]
  congr 1
  congr 1
  exact List.filterMap_congr (fun k hk => by rw [hagree k hk])

/-- C8: a `SheetSpec`'s name is a pure function of its canonically
ordered properties: property mappings that agree on (all lookups of) the
canonical `name_ordering` keys yield equal names — in particular
insertion order of the input mapping is irrelevant — and the name is the
concatenation of the string forms of the property values in canonical
key order. -/
theorem sheet_name_canonical (ty : TypeTag) (p1 p2 : List (String × PVal))
    (s1 s2 : SheetSpec)
    (hagree : ∀ k ∈ name_ordering, dictLookup p1 k = dictLookup p2 k)
    (h1 : sheetSpecInit ty p1 = some s1) (h2 : sheetSpecInit ty p2 = some s2) :
    sheetSpecStr s1 = sheetSpecStr s2 ∧
    sheetSpecStr s1 =
      String.join ((name_ordering.filterMap (fun k => dictLookup p1 k)).map strVal) ∧
    (∀ q1 q2 : List (String × PVal), ∀ t1 t2 : SheetSpec, q1.Perm q2 →
      (q1.map Prod.fst).Nodup →
      sheetSpecInit ty q1 = some t1 → sheetSpecInit ty q2 = some t2 →
      sheetSpecStr t1 = sheetSpecStr t2) := by
  refine ⟨sheet_name_agree hagree h1 h2, ?_, ?_⟩
  · rw [sheetSpecStr_eq_join, sheetSpecInit_properties h1,
      List.map_filterMap, List.map_filterMap]
    refine congrArg String.join (List.filterMap_congr (fun k _ => ?_))
    cases dictLookup p1 k <;> rfl
  · intro q1 q2 t1 t2 hperm hnd hq1 hq2
    exact sheet_name_agree (fun k _ => dictLookup_perm hperm hnd k) hq1 hq2

/-- Witness for C8: the mappings `{level: V1, SF: 1}` and
`{SF: 1, level: V1}` (same bindings, different insertion order) both
give a sheet named `V11`. -/
theorem sheet_name_canonical_witness :
    sheetSpecStr { toSpecification := specInit plainSheetType,
                   sheet_type := plainSheetType,
                   properties := [("level", PVal.s "V1"), ("SF", PVal.i 1)] } =
      sheetSpecStr { toSpecification := specInit plainSheetType,
                     sheet_type := plainSheetType,
                     properties := [("level", PVal.s "V1"), ("SF", PVal.i 1)] } ∧
    sheetSpecStr { toSpecification := specInit plainSheetType,
                   sheet_type := plainSheetType,
                   properties := [("level", PVal.s "V1"), ("SF", PVal.i 1)] } =
      String.join ((name_ordering.filterMap
        (fun k => dictLookup [("level", PVal.s "V1"), ("SF", PVal.i 1)] k)).map strVal) :=
  ⟨(sheet_name_canonical plainSheetType
      [("level", PVal.s "V1"), ("SF", PVal.i 1)]
      [("SF", PVal.i 1), ("level", PVal.s "V1")]
      { toSpecification := specInit plainSheetType,
        sheet_type := plainSheetType,
        properties := [("level", PVal.s "V1"), ("SF", PVal.i 1)] }
      { toSpecification := specInit plainSheetType,
        sheet_type := plainSheetType,
        properties := [("level", PVal.s "V1"), ("SF", PVal.i 1)] }
      (by decide) (by decide) (by decide)).1,
   (sheet_name_canonical plainSheetType
      [("level", PVal.s "V1"), ("SF", PVal.i 1)]
      [("SF", PVal.i 1), ("level", PVal.s "V1")]
      { toSpecification := specInit plainSheetType,
        sheet_type := plainSheetType,
        properties := [("level", PVal.s "V1"), ("SF", PVal.i 1)] }
      { toSpecification := specInit plainSheetType,
        sheet_type := plainSheetType,
        properties := [("level", PVal.s "V1"), ("SF", PVal.i 1)] }
      (by decide) (by decide) (by decide)).2.1⟩

end SheetName

section Registry

variable {V : Type}

/-- Stable insertion by ascending priority: an element is inserted after
all strictly smaller priorities and before equal-or-larger ones, which
together with the fold below reproduces Python's stable
`sorted(flattened, key=lambda x: x[1][0])`. -/
def insertByPrio (x : String × Nat × V) :
    List (String × Nat × V) → List (String × Nat × V)
  | [] => [x]
  | y :: ys => if y.2.1 < x.2.1 then y :: insertByPrio x ys else x :: y :: ys

def sortByPrio : List (String × Nat × V) → List (String × Nat × V)
  | [] => []
  | x :: xs => insertByPrio x (sortByPrio xs)

/-- `Model._collect`: flatten all `label → (priority, value)` items
across the decorator list, sort ascending by priority, and build a dict
over the `(label, value)` pairs in that order, overwriting on duplicate
labels. -/
def collect (decorators : List (List (String × Nat × V))) : List (String × V) :=
  dictOf []
    ((sortByPrio (decorators.flatMap (fun d => d))).map (fun e => (e.1, e.2.2)))

theorem insertByPrio_perm (x : String × Nat × V) (l : List (String × Nat × V)) :
    (insertByPrio x l).Perm (x :: l) := by
  induction l with
  | nil => exact List.Perm.refl _
  | cons y ys ih =>
    by_cases h : y.2.1 < x.2.1
    · rw [insertByPrio, if_pos h]
      exact (ih.cons y).trans (List.Perm.swap x y ys)
    · rw [insertByPrio, if_neg h]

theorem sortByPrio_perm : ∀ l : List (String × Nat × V), (sortByPrio l).Perm l
  | [] => List.Perm.refl _
  | x :: xs => (insertByPrio_perm x (sortByPrio xs)).trans ((sortByPrio_perm xs).cons x)

theorem insertByPrio_pairwise (x : String × Nat × V) {l : List (String × Nat × V)}
    (h : l.Pairwise (fun a b => a.2.1 ≤ b.2.1)) :
    (insertByPrio x l).Pairwise (fun a b => a.2.1 ≤ b.2.1) := by
  induction l with
  | nil => simp [insertByPrio]
  | cons y ys ih =>
    obtain ⟨hy, hys⟩ := List.pairwise_cons.mp h
    by_cases hcmp : y.2.1 < x.2.1
    · rw [insertByPrio, if_pos hcmp, List.pairwise_cons]
      refine ⟨?_, ih hys⟩
      intro z hz
      rcases List.mem_cons.mp ((insertByPrio_perm x ys).mem_iff.mp hz) with rfl | hz2
      · exact Nat.le_of_lt hcmp
      · exact hy z hz2
    · rw [insertByPrio, if_neg hcmp, List.pairwise_cons]
      refine ⟨?_, h⟩
      intro z hz
      rcases List.mem_cons.mp hz with rfl | hz2
      · exact Nat.le_of_not_lt hcmp
      · exact Nat.le_trans (Nat.le_of_not_lt hcmp) (hy z hz2)

theorem sortByPrio_pairwise :
    ∀ l : List (String × Nat × V),
      (sortByPrio l).Pairwise (fun a b => a.2.1 ≤ b.2.1)
  | [] => List.Pairwise.nil
  | x :: xs => insertByPrio_pairwise x (sortByPrio_pairwise xs)

/-- The final content of a Python dict built by inserting a sequence of
pairs: the value of the last pair carrying the key. -/
def lastVal {β : Type} (k : String) : List (String × β) → Option β
  | [] => none
  | (k2, v) :: rest =>
    match lastVal k rest with
    | some w => some w
    | none => if k2 = k then some v else none

theorem lastVal_eq_none {β : Type} (k : String) {m : List (String × β)}
    (h : ∀ kv ∈ m, kv.1 ≠ k) : lastVal k m = none := by
  induction m with
  | nil => rfl
  | cons kv rest ih =>
    obtain ⟨k2, v⟩ := kv
    have h2 : k2 ≠ k := h (k2, v) (List.mem_cons_self _ _)
    rw [lastVal, ih (fun kv2 hm => h kv2 (List.mem_cons_of_mem _ hm))]
    simp [h2]

theorem dictLookup_dictOf_eq_lastVal {β : Type} (k : String) :
    ∀ (l d0 : List (String × β)),
      dictLookup (dictOf d0 l) k =
        match lastVal k l with
        | some w => some w
        | none => dictLookup d0 k
  | [], d0 => rfl
  | (k2, v2) :: rest, d0 => by
    have hstep : dictOf d0 ((k2, v2) :: rest) = dictOf (dictInsert d0 k2 v2) rest := rfl
    rw [hstep, dictLookup_dictOf_eq_lastVal k rest (dictInsert d0 k2 v2), lastVal]
    cases lastVal k rest with
    | some w => rfl
    | none =>
      by_cases h2 : k2 = k
      · subst h2
        simp [dictLookup_dictInsert_self]
      · simp [dictLookup_dictInsert_ne _ _ _ _ (Ne.symm h2), h2]

theorem lastVal_sorted_max {l : List (String × Nat × V)} {e : String × Nat × V}
    (hsort : l.Pairwise (fun a b => a.2.1 < b.2.1)) (hmem : e ∈ l)
    (hmax : ∀ e2 ∈ l, e2.1 = e.1 → e2.2.1 ≤ e.2.1) :
    lastVal e.1 (l.map (fun x => (x.1, x.2.2))) = some e.2.2 := by
  induction l with
  | nil => simp at hmem
  | cons x l' ih =>
    obtain ⟨hx, hl'⟩ := List.pairwise_cons.mp hsort
    rcases List.mem_cons.mp hmem with rfl | hmem2
    · have hnone : lastVal e.1 (l'.map (fun x => (x.1, x.2.2))) = none := by
        apply lastVal_eq_none
        intro kv hkv
        obtain ⟨e2, he2, rfl⟩ := List.mem_map.mp hkv
        intro heq
        exact absurd (hmax e2 (List.mem_cons_of_mem _ he2) heq)
          (Nat.not_le_of_lt (hx e2 he2))
      simp [lastVal, hnone]
    · have := ih hl' hmem2 (fun e2 hm heq => hmax e2 (List.mem_cons_of_mem _ hm) heq)
      simp [lastVal, this]

theorem collect_lookup {flat : List (String × Nat × V)} {e : String × Nat × V}
    (hdist : flat.Pairwise (fun a b => a.2.1 ≠ b.2.1))
    (hmem : e ∈ flat)
    (hmax : ∀ e2 ∈ flat, e2.1 = e.1 → e2.2.1 ≤ e.2.1) :
    dictLookup (dictOf [] ((sortByPrio flat).map (fun x => (x.1, x.2.2)))) e.1 =
      some e.2.2 := by
  have hperm := sortByPrio_perm flat
  have hne : (sortByPrio flat).Pairwise (fun a b => a.2.1 ≠ b.2.1) :=
    (List.Perm.pairwise_iff (fun h => Ne.symm h) hperm).mpr hdist
  have hlt : (sortByPrio flat).Pairwise (fun a b => a.2.1 < b.2.1) :=
    ((sortByPrio_pairwise flat).and hne).imp
      (fun h => Nat.lt_of_le_of_ne h.1 h.2)
  have hmem' : e ∈ sortByPrio flat := hperm.mem_iff.mpr hmem
  have hmax' : ∀ e2 ∈ sortByPrio flat, e2.1 = e.1 → e2.2.1 ≤ e.2.1 :=
    fun e2 hm heq => hmax e2 (hperm.mem_iff.mp hm) heq
  rw [dictLookup_dictOf_eq_lastVal, lastVal_sorted_max hlt hmem' hmax']

/-- C2: over any set of registry (decorator) objects whose flattened
registrations carry pairwise distinct priorities, `collect` maps a label
to the value of its highest-priority registration, and the result is the
same for any reordering of the decorator set — hence a subclass's later
(higher-priority) registration of a label always overrides a base
class's earlier one. -/
theorem collect_highest_priority_wins
    (decs decs' : List (List (String × Nat × V))) (e : String × Nat × V)
    (hperm : decs.Perm decs')
    (hdist : (decs.flatMap (fun d => d)).Pairwise (fun a b => a.2.1 ≠ b.2.1))
    (hmem : e ∈ decs.flatMap (fun d => d))
    (hmax : ∀ e2 ∈ decs.flatMap (fun d => d), e2.1 = e.1 → e2.2.1 ≤ e.2.1) :
    dictLookup (collect decs) e.1 = some e.2.2 ∧
    dictLookup (collect decs') e.1 = some e.2.2 := by
  have hflat : (decs.flatMap (fun d => d)).Perm (decs'.flatMap (fun d => d)) :=
    hperm.flatMap_right _
  refine ⟨collect_lookup hdist hmem hmax, collect_lookup ?_ ?_ ?_⟩
  · exact (List.Perm.pairwise_iff (fun h => Ne.symm h) hflat).mp hdist
  · exact hflat.mem_iff.mp hmem
  · exact fun e2 hm heq => hmax e2 (hflat.mem_iff.mpr hm) heq

/-- Witness for C2: two one-entry decorators registering label `A` with
priorities 0 and 5; in either order, `collect` returns the value of the
priority-5 registration. -/
theorem collect_highest_priority_wins_witness :
    dictLookup (collect [[("A", 0, 10)], [("A", 5, 20)]]) "A" = some 20 ∧
    dictLookup (collect [[("A", 5, 20)], [("A", 0, 10)]]) "A" = some 20 :=
  collect_highest_priority_wins
    [[("A", 0, 10)], [("A", 5, 20)]] [[("A", 5, 20)], [("A", 0, 10)]]
    ("A", 5, 20) (by decide) (by decide) (by decide) (by decide)

end Registry

section PriorityCounter

/-- The process-wide registration state: the `ClassDecorator.priority`
class counter together with the trace of registration events, each
recorded as (decorator name, label, assigned priority). -/
structure RegState where
  counter : Nat
  trace : List (String × String × Nat)
deriving DecidableEq

/-- `ClassDecorator.__call__` as far as the priority counter is
concerned: the registration records the current counter value (for both
the `types` and the `labels` entry) and then increments the counter. -/
def classDecoratorCall (s : RegState) (decorator label : String) : RegState :=
  { counter := s.counter + 1
    trace := s.trace ++ [(decorator, label, s.counter)] }

/-- A sequence of registration events (decorator name, label) applied in
order. -/
def runRegistrations (s : RegState) : List (String × String) → RegState
  | [] => s
  | (d, l) :: evs => runRegistrations (classDecoratorCall s d l) evs

theorem runRegistrations_trace (evs : List (String × String)) :
    ∀ s : RegState,
      (runRegistrations s evs).counter = s.counter + evs.length ∧
      (runRegistrations s evs).trace.map (fun e => e.2.2) =
        s.trace.map (fun e => e.2.2) ++ List.range' s.counter evs.length := by
  induction evs with
  | nil => intro s; simp [runRegistrations]
  | cons ev evs ih =>
    intro s
    obtain ⟨d, l⟩ := ev
    have hstep : runRegistrations s ((d, l) :: evs) =
        runRegistrations (classDecoratorCall s d l) evs := rfl
    obtain ⟨hc, ht⟩ := ih (classDecoratorCall s d l)
    constructor
    · rw [hstep, hc]
      simp [classDecoratorCall]
      omega
    · rw [hstep, ht]
      simp [classDecoratorCall, List.range'_succ]

/-- C6: the registry priority counter is process-wide and monotonically
increasing: starting from counter value `c0`, a sequence of registration
events (through any decorator objects) assigns exactly the priorities
`c0, c0+1, …` in order, so every registration's priority is strictly
greater than all earlier ones, priorities are pairwise distinct, and the
counter ends at `c0 + number of events`, never decreased or reused. -/
theorem registration_priorities_strictly_increasing
    (c0 : Nat) (evs : List (String × String)) :
    (runRegistrations ⟨c0, []⟩ evs).counter = c0 + evs.length ∧
    (runRegistrations ⟨c0, []⟩ evs).trace.map (fun e => e.2.2) =
      List.range' c0 evs.length ∧
    ((runRegistrations ⟨c0, []⟩ evs).trace.map (fun e => e.2.2)).Pairwise (· < ·) ∧
    ((runRegistrations ⟨c0, []⟩ evs).trace.map (fun e => e.2.2)).Nodup := by
  obtain ⟨hc, ht⟩ := runRegistrations_trace evs ⟨c0, []⟩
  simp only [List.map_nil, List.nil_append] at ht
  exact ⟨hc, ht, ht ▸ List.pairwise_lt_range' c0 evs.length,
    ht ▸ List.nodup_range' c0 evs.length⟩

end PriorityCounter

section OrderProjections

/-- An entry of the `connection_order` argument of `order_projections`:
either a bare matchname or a `(matchname, property dict)` tuple. -/
inductive ConnEntry where
  | plain : String → ConnEntry
  | withProps : String → List (String × PVal) → ConnEntry
deriving DecidableEq

/-- `order_projections` line 63: bare names are normalised to
`(name, None)`. -/
def connNormalize : List ConnEntry → List (String × Option (List (String × PVal)))
  | [] => []
  | .plain n :: rest => (n, none) :: connNormalize rest
  | .withProps n d :: rest => (n, some d) :: connNormalize rest

/-- Python `enumerate`, starting the index at `n`. -/
def enumFrom {α : Type} (n : Nat) : List α → List (Nat × α)
  | [] => []
  | x :: xs => (n, x) :: enumFrom (n + 1) xs

/-- `matches` in `order_projections`: the indexed connection-list entries
whose matchname equals `mn`. -/
def orderMatches (clist : List (String × Option (List (String × PVal))))
    (mn : String) : List (Nat × String × Option (List (String × PVal))) :=
  (enumFrom 0 clist).filter (fun ie => ie.2.1 == mn)

/-- `pdict[key] == spec_property_value` for one matched entry (the
`None` case cannot be reached through `orderMulti`, which has already
required every entry to carry a dict). -/
def optDictIs (od : Option (List (String × PVal))) (k : String) (x : PVal) : Bool :=
  match od with
  | some d => dictLookup d k == some x
  | none => false

/-- Lines 83–87 of `order_projections`: look up the source sheet's
property value for the common key (`KeyError` when absent) and select
the unique matched entry whose dict carries that value; zero or several
selected entries raise. -/
def orderSelect (ms : List (Nat × String × Option (List (String × PVal))))
    (key : String) (srcProps : List (String × PVal)) : Option Nat :=
  match dictLookup srcProps key with
  | none => none
  | some x =>
    match ms.filter (fun ie => optDictIs ie.2.2 key x) with
    | [(j, _)] => some j
    | _ => none

/-- Lines 76–82 of `order_projections`: every matched entry must carry a
dict with exactly one key, and all entries the same key (a bare entry —
`pdict = None` — or any violation raises, modelled by `none`). -/
def orderKeyCheck (ms : List (Nat × String × Option (List (String × PVal))))
    (pdicts : List (List (String × PVal)))
    (srcProps : List (String × PVal)) : Option Nat :=
  if (pdicts.map (fun d => d.map Prod.fst)).all (fun pkeys => pkeys.length == 1) then
    match pdicts.map (fun d => d.map Prod.fst) with
    | (key :: _) :: _ =>
      if (pdicts.map (fun d => d.map Prod.fst)).all
          (fun pkeys => pkeys.head? == some key) then
        orderSelect ms key srcProps
      else none
    | _ => none
  else none

/-- The multiple-occurrence branch of `order_projections` (lines 76–87):
`mapM` models the fact that `pdict.keys()` raises on a bare (`None`)
entry. -/
def orderMulti (ms : List (Nat × String × Option (List (String × PVal))))
    (srcProps : List (String × PVal)) : Option Nat :=
  (ms.mapM (fun ie : Nat × String × Option (List (String × PVal)) => ie.2.2)).bind
    (fun pdicts => orderKeyCheck ms pdicts srcProps)

/-- The per-projection body of `order_projections` (lines 66–87): the
precedence assigned to a projection with matchname `mn` and source-sheet
properties `srcProps`, or `none` where the source raises. -/
def orderOne (clist : List (String × Option (List (String × PVal))))
    (mn : String) (srcProps : List (String × PVal)) : Option Nat :=
  match orderMatches clist mn with
  | [] => none
  | [(i, _)] => some i
  | m1 :: m2 :: ms => orderMulti (m1 :: m2 :: ms) srcProps

/-- `order_projections(model, connection_order)`: assign every
projection spec its precedence; any per-projection failure fails the
whole call. -/
def order_projections (projs : List ProjectionSpec)
    (connection_order : List ConnEntry) : Option (List ProjectionSpec) :=
  projs.mapM (fun p =>
    (orderOne (connNormalize connection_order) p.matchname p.src.properties).map
      (fun i => { p with sort_precedence := i }))

theorem orderMatches_length (clist : List (String × Option (List (String × PVal))))
    (mn : String) :
    (orderMatches clist mn).length = (clist.map Prod.fst).count mn := by
  unfold orderMatches
  suffices h : ∀ n, ((enumFrom n clist).filter (fun ie => ie.2.1 == mn)).length =
      (clist.map Prod.fst).count mn from h 0
  induction clist with
  | nil => intro n; rfl
  | cons kv rest ih =>
    intro n
    obtain ⟨k, od⟩ := kv
    by_cases h : k = mn
    · subst h
      simp [enumFrom, List.filter_cons, List.count_cons, ih (n + 1)]
    · simp [enumFrom, List.filter_cons, List.count_cons, h, ih (n + 1)]

theorem mem_enumFrom {α : Type} {l : List α} {i : Nat} {x : α}
    (h : l[i]? = some x) : ∀ n, (n + i, x) ∈ enumFrom n l := by
  induction l generalizing i with
  | nil => simp at h
  | cons y ys ih =>
    intro n
    cases i with
    | zero =>
      simp only [List.getElem?_cons_zero, Option.some.injEq] at h
      subst h
      exact List.mem_cons_self _ _
    | succ i2 =>
      simp only [List.getElem?_cons_succ] at h
      have := ih h (n + 1)
      have harith : n + 1 + i2 = n + (i2 + 1) := by omega
      rw [harith] at this
      exact List.mem_cons_of_mem _ this

theorem mem_orderMatches {clist : List (String × Option (List (String × PVal)))}
    {mn : String} {i : Nat} {od : Option (List (String × PVal))}
    (h : clist[i]? = some (mn, od)) : (i, (mn, od)) ∈ orderMatches clist mn := by
  unfold orderMatches
  rw [List.mem_filter]
  constructor
  · have := mem_enumFrom h 0
    simpa using this
  · simp

theorem mapM_singleton_dicts {kk : String}
    {ms : List (Nat × String × Option (List (String × PVal)))}
    (h : ∀ e ∈ ms, ∃ v, e.2.2 = some [(kk, v)]) :
    ∃ vs : List PVal,
      ms.mapM (fun e => e.2.2) = some (vs.map (fun v => [(kk, v)])) ∧
      vs.length = ms.length := by
  induction ms with
  | nil => exact ⟨[], rfl, rfl⟩
  | cons e ms2 ih =>
    obtain ⟨v, hv⟩ := h e (List.mem_cons_self _ _)
    obtain ⟨vs, hvs, hlen⟩ := ih (fun e2 hm => h e2 (List.mem_cons_of_mem _ hm))
    refine ⟨v :: vs, ?_, by simp [hlen]⟩
    rw [List.mapM_cons, hv, hvs]
    rfl

theorem orderMulti_eval {kk : String} {x : PVal}
    {m1 m2 : Nat × String × Option (List (String × PVal))}
    {rest : List (Nat × String × Option (List (String × PVal)))}
    {srcProps : List (String × PVal)}
    (hform : ∀ e ∈ m1 :: m2 :: rest, ∃ v, e.2.2 = some [(kk, v)])
    (hx : dictLookup srcProps kk = some x) :
    orderMulti (m1 :: m2 :: rest) srcProps =
      match (m1 :: m2 :: rest).filter (fun e => optDictIs e.2.2 kk x) with
      | [(j, _)] => some j
      | _ => none := by
  obtain ⟨vs, hvs, hlen⟩ := mapM_singleton_dicts hform
  obtain ⟨v0, vs', rfl⟩ : ∃ v0 vs', vs = v0 :: vs' := by
    cases vs with
    | nil => simp at hlen
    | cons a b => exact ⟨a, b, rfl⟩
  unfold orderMulti
  rw [hvs, Option.some_bind]
  unfold orderKeyCheck
  have hkform : ((v0 :: vs').map (fun v => [(kk, v)])).map (fun d => d.map Prod.fst) =
      [kk] :: vs'.map (fun _ => ([kk] : List String)) := by
    rw [List.map_map]
    rfl
  rw [hkform]
  have htrue1 : (([kk] :: vs'.map (fun _ => ([kk] : List String))).all
      (fun pkeys => pkeys.length == 1)) = true := by
    rw [List.all_eq_true]
    intro pk hpk
    rcases List.mem_cons.mp hpk with rfl | hpk2
    · rfl
    · obtain ⟨v, _, rfl⟩ := List.mem_map.mp hpk2
      rfl
  rw [htrue1, if_pos rfl]
  show (if (([kk] :: vs'.map (fun _ => ([kk] : List String))).all
      (fun pkeys => pkeys.head? == some kk)) = true then
    orderSelect (m1 :: m2 :: rest) kk srcProps else none) = _
  have htrue2 : (([kk] :: vs'.map (fun _ => ([kk] : List String))).all
      (fun pkeys => pkeys.head? == some kk)) = true := by
    rw [List.all_eq_true]
    intro pk hpk
    rcases List.mem_cons.mp hpk with rfl | hpk2
    · simp
    · obtain ⟨v, _, rfl⟩ := List.mem_map.mp hpk2
      simp
  rw [htrue2, if_pos rfl]
  unfold orderSelect
  rw [hx]

theorem orderOne_unique {clist : List (String × Option (List (String × PVal)))}
    {mn : String} {i : Nat} {od : Option (List (String × PVal))}
    (srcProps : List (String × PVal))
    (hcount : (clist.map Prod.fst).count mn = 1)
    (hget : clist[i]? = some (mn, od)) :
    orderOne clist mn srcProps = some i := by
  have hmem := mem_orderMatches hget
  have hlen : (orderMatches clist mn).length = 1 := by
    rw [orderMatches_length]; exact hcount
  obtain ⟨a, ha⟩ := List.length_eq_one.mp hlen
  rw [ha] at hmem
  have heq : a = (i, (mn, od)) := (List.mem_singleton.mp hmem).symm
  unfold orderOne
  rw [ha, heq]

theorem orderOne_nomatch {clist : List (String × Option (List (String × PVal)))}
    {mn : String} (srcProps : List (String × PVal))
    (hcount : (clist.map Prod.fst).count mn = 0) :
    orderOne clist mn srcProps = none := by
  have hlen : (orderMatches clist mn).length = 0 := by
    rw [orderMatches_length]; exact hcount
  rw [List.length_eq_zero] at hlen
  unfold orderOne
  rw [hlen]

theorem orderOne_multi_select {clist : List (String × Option (List (String × PVal)))}
    {mn kk : String} {x : PVal} {j : Nat}
    {ej : String × Option (List (String × PVal))}
    {m1 m2 : Nat × String × Option (List (String × PVal))}
    {rest : List (Nat × String × Option (List (String × PVal)))}
    {srcProps : List (String × PVal)}
    (hms : orderMatches clist mn = m1 :: m2 :: rest)
    (hform : ∀ e ∈ m1 :: m2 :: rest, ∃ v, e.2.2 = some [(kk, v)])
    (hx : dictLookup srcProps kk = some x)
    (hfilter : (m1 :: m2 :: rest).filter (fun e => optDictIs e.2.2 kk x) = [(j, ej)]) :
    orderOne clist mn srcProps = some j := by
  have h1 : orderOne clist mn srcProps = orderMulti (m1 :: m2 :: rest) srcProps := by
    unfold orderOne
    rw [hms]
  rw [h1, orderMulti_eval hform hx, hfilter]

theorem orderOne_multi_fail {clist : List (String × Option (List (String × PVal)))}
    {mn kk : String} {x : PVal}
    {m1 m2 : Nat × String × Option (List (String × PVal))}
    {rest : List (Nat × String × Option (List (String × PVal)))}
    {srcProps : List (String × PVal)}
    (hms : orderMatches clist mn = m1 :: m2 :: rest)
    (hform : ∀ e ∈ m1 :: m2 :: rest, ∃ v, e.2.2 = some [(kk, v)])
    (hx : dictLookup srcProps kk = some x)
    (hflen : ((m1 :: m2 :: rest).filter (fun e => optDictIs e.2.2 kk x)).length ≠ 1) :
    orderOne clist mn srcProps = none := by
  have h1 : orderOne clist mn srcProps = orderMulti (m1 :: m2 :: rest) srcProps := by
    unfold orderOne
    rw [hms]
  rw [h1, orderMulti_eval hform hx]
  rcases hF : (m1 :: m2 :: rest).filter (fun e => optDictIs e.2.2 kk x) with
    _ | ⟨⟨j2, e2⟩, _ | ⟨⟨j3, e3⟩, t⟩⟩
  · rw [hF]
  · rw [hF] at hflen
    exact absurd rfl hflen
  · rw [hF]

theorem mapM_eq_map {α β : Type} {l : List α} {f : α → Option β} {g : α → β}
    (h : ∀ a ∈ l, f a = some (g a)) : l.mapM f = some (l.map g) := by
  induction l with
  | nil => rfl
  | cons a l2 ih =>
    rw [List.mapM_cons, h a (List.mem_cons_self _ _),
      ih (fun a2 hm => h a2 (List.mem_cons_of_mem _ hm))]
    rfl

/-- C5: legacy explicit ordering. A matchname occurring exactly once in
the connection list (at position `i`) assigns precedence `i` to every
matching projection unconditionally; a matchname occurring several times
must be disambiguated by a single common property key, the source-side
value of which selects the unique list position; zero occurrences, or a
disambiguation selecting zero or several entries, raise (modelled as
`none`). -/
theorem order_projections_cases
    (clist : List (String × Option (List (String × PVal))))
    (mn kk : String) (srcProps : List (String × PVal)) (x : PVal)
    (i j : Nat) (od : Option (List (String × PVal)))
    (ej : String × Option (List (String × PVal)))
    (m1 m2 : Nat × String × Option (List (String × PVal)))
    (rest : List (Nat × String × Option (List (String × PVal))))
    (co : List ConnEntry) (projs : List ProjectionSpec) :
    ((clist.map Prod.fst).count mn = 1 → clist[i]? = some (mn, od) →
      orderOne clist mn srcProps = some i) ∧
    ((clist.map Prod.fst).count mn = 0 →
      orderOne clist mn srcProps = none) ∧
    (orderMatches clist mn = m1 :: m2 :: rest →
      (∀ e ∈ m1 :: m2 :: rest, ∃ v, e.2.2 = some [(kk, v)]) →
      dictLookup srcProps kk = some x →
      (m1 :: m2 :: rest).filter (fun e => optDictIs e.2.2 kk x) = [(j, ej)] →
      orderOne clist mn srcProps = some j) ∧
    (orderMatches clist mn = m1 :: m2 :: rest →
      (∀ e ∈ m1 :: m2 :: rest, ∃ v, e.2.2 = some [(kk, v)]) →
      dictLookup srcProps kk = some x →
      ((m1 :: m2 :: rest).filter (fun e => optDictIs e.2.2 kk x)).length ≠ 1 →
      orderOne clist mn srcProps = none) ∧
    (connNormalize co = clist →
      (∀ p ∈ projs, p.matchname = mn ∧ p.src.properties = srcProps) →
      (clist.map Prod.fst).count mn = 1 → clist[i]? = some (mn, od) →
      order_projections projs co =
        some (projs.map (fun p => { p with sort_precedence := i }))) := by
  refine ⟨fun h1 h2 => orderOne_unique srcProps h1 h2,
    fun h1 => orderOne_nomatch srcProps h1,
    fun h1 h2 h3 h4 => orderOne_multi_select h1 h2 h3 h4,
    fun h1 h2 h3 h4 => orderOne_multi_fail h1 h2 h3 h4,
    ?_⟩
  intro hnorm hall hcount hget
  unfold order_projections
  apply mapM_eq_map
  intro p hp
  obtain ⟨hmn, hsp⟩ := hall p hp
  rw [hnorm, hmn, hsp, orderOne_unique srcProps hcount hget]
  rfl

/-- A parameterless concrete projection type used for concrete test
projections. -/
def plainProjType : TypeTag := ⟨"Proj", []⟩

/-- A concrete sheet whose `polarity` property is `x`. -/
def sheetPolX : SheetSpec :=
  { toSpecification := specInit plainSheetType
    sheet_type := plainSheetType
    properties := [("level", PVal.s "L"), ("polarity", PVal.s "x")] }

/-- A concrete projection with matchname `B` from and to `sheetPolX`. -/
def projB : ProjectionSpec :=
  { projSpecInit plainProjType sheetPolX sheetPolX with matchname := "B" }

/-- Witness for C5: a single occurrence of `B` orders unconditionally; a
missing matchname fails; the two-entry `A` list disambiguated on
`polarity` selects position 0 for an `x` source and 1 for a `y` source
and fails for a `z` source; `order_projections` assigns the position to
the projection's `sort_precedence`. -/
theorem order_projections_cases_witness :
    orderOne [("B", none)] "B" [] = some 0 ∧
    orderOne [("B", none)] "C" [] = none ∧
    orderOne [("A", some [("polarity", PVal.s "x")]),
              ("A", some [("polarity", PVal.s "y")])]
      "A" [("level", PVal.s "L"), ("polarity", PVal.s "x")] = some 0 ∧
    orderOne [("A", some [("polarity", PVal.s "x")]),
              ("A", some [("polarity", PVal.s "y")])]
      "A" [("level", PVal.s "L"), ("polarity", PVal.s "y")] = some 1 ∧
    orderOne [("A", some [("polarity", PVal.s "x")]),
              ("A", some [("polarity", PVal.s "y")])]
      "A" [("level", PVal.s "L"), ("polarity", PVal.s "z")] = none ∧
    order_projections [projB] [ConnEntry.plain "B"] =
      some [{ projB with sort_precedence := 0 }] := by
  refine ⟨?_, ?_, ?_, ?_, ?_, ?_⟩
  · exact (order_projections_cases [("B", none)] "B" "k" [] (PVal.s "x") 0 0 none
      ("", none) (0, ("", none)) (0, ("", none)) [] [] []).1 (by decide) (by decide)
  · exact (order_projections_cases [("B", none)] "C" "k" [] (PVal.s "x") 0 0 none
      ("", none) (0, ("", none)) (0, ("", none)) [] [] []).2.1 (by decide)
  · exact (order_projections_cases
      [("A", some [("polarity", PVal.s "x")]), ("A", some [("polarity", PVal.s "y")])]
      "A" "polarity" [("level", PVal.s "L"), ("polarity", PVal.s "x")] (PVal.s "x")
      0 0 none ("A", some [("polarity", PVal.s "x")])
      (0, ("A", some [("polarity", PVal.s "x")]))
      (1, ("A", some [("polarity", PVal.s "y")])) [] [] []).2.2.1
      (by decide) (by simp) (by decide) (by decide)
  · exact (order_projections_cases
      [("A", some [("polarity", PVal.s "x")]), ("A", some [("polarity", PVal.s "y")])]
      "A" "polarity" [("level", PVal.s "L"), ("polarity", PVal.s "y")] (PVal.s "y")
      0 1 none ("A", some [("polarity", PVal.s "y")])
      (0, ("A", some [("polarity", PVal.s "x")]))
      (1, ("A", some [("polarity", PVal.s "y")])) [] [] []).2.2.1
      (by decide) (by simp) (by decide) (by decide)
  · exact (order_projections_cases
      [("A", some [("polarity", PVal.s "x")]), ("A", some [("polarity", PVal.s "y")])]
      "A" "polarity" [("level", PVal.s "L"), ("polarity", PVal.s "z")] (PVal.s "z")
      0 0 none ("", none)
      (0, ("A", some [("polarity", PVal.s "x")]))
      (1, ("A", some [("polarity", PVal.s "y")])) [] [] []).2.2.2.1
      (by decide) (by simp) (by decide) (by decide)
  · exact (order_projections_cases [("B", none)] "B" "k"
      sheetPolX.properties (PVal.s "x") 0 0 none
      ("", none) (0, ("", none)) (0, ("", none)) []
      [ConnEntry.plain "B"] [projB]).2.2.2.2
      (by decide) (by decide) (by decide) (by decide)

end OrderProjections

section ModelSetup

/-- The per-level sheet population returned by `setup_sheets`: a sentinel
meaning exactly one parameterless sheet (`lancet.Identity`) or an
explicit list of property mappings (the empty list means skip the
level). -/
inductive PropList where
  | identity : PropList
  | explicit : List (List (String × PVal)) → PropList

/-- The return shape of a projection parameter function: a single
parameter dict or a list of them; line 641 of the source normalises
both to a list. -/
inductive ParamRet where
  | single : List (String × PVal) → ParamRet
  | multiple : List (List (String × PVal)) → ParamRet

def normalizeParamRet : ParamRet → List (List (String × PVal))
  | .single d => [d]
  | .multiple l => l

/-- A concrete `Model` subclass as the setup pipeline sees it: the data
returned by `setup_sheets`, the collected registries (`sheet_types`,
`sheet_labels`, `projection_types`, `projection_labels`) and the
matchconditions table. The embedded parameter and matchcondition
functions drop the `model`/`self` argument of the Python methods (they
close over the model instance). -/
structure ModelDef where
  sheet_properties : List (String × PropList)
  sheet_types : List (String × TypeTag)
  sheet_labels : List (String × (List (String × PVal) → List (String × PVal)))
  matchconditions :
    List (String × List (String ×
      (List (String × PVal) → Option (List (String × PVal)))))
  projection_types : List (String × TypeTag)
  projection_labels :
    List (String × (List (String × PVal) → List (String × PVal) → ParamRet))

/-- `AttrTree.set_path` over two-component projection paths: overwrite in
place or append, as for `dictInsert`. -/
def pathInsert {α : Type} (l : List ((String × String) × α)) (k : String × String)
    (v : α) : List ((String × String) × α) :=
  match l with
  | [] => [(k, v)]
  | (k2, v2) :: rest =>
    if k2 = k then (k2, v) :: rest else (k2, v2) :: pathInsert rest k v

/-- Lines 570–576: the sentinel yields one empty property mapping, an
empty list skips the level (`none`), otherwise the explicit list. -/
def expandPropertyList : PropList → Option (List (List (String × PVal)))
  | .identity => some [[]]
  | .explicit [] => none
  | .explicit (p :: ps) => some (p :: ps)

/-- Lines 578–582: build one `SheetSpec` per property mapping at a
level, with `level` merged into the properties, the level's enumeration
index as `sort_precedence`, and registration under the canonical name. -/
def addSheets (sheet_type : TypeTag) (level : String) (ordering : Nat) :
    List (List (String × PVal)) → List (String × SheetSpec) →
    Option (List (String × SheetSpec))
  | [], acc => some acc
  | properties :: rest, acc =>
    match sheetSpecInit sheet_type (dictOf [("level", PVal.s level)] properties) with
    | none => none
    | some sp =>
      addSheets sheet_type level ordering rest
        (dictInsert acc (sheetSpecStr { sp with sort_precedence := ordering })
          { sp with sort_precedence := ordering })

/-- Lines 566–582: iterate the levels in order; the sheet type is looked
up before the empty-list skip, exactly as in the source. -/
def buildSheets (m : ModelDef) :
    Nat → List (String × PropList) → List (String × SheetSpec) →
    Option (List (String × SheetSpec))
  | _, [], acc => some acc
  | ordering, (level, plist) :: rest, acc =>
    match dictLookup m.sheet_types level with
    | none => none
    | some sheet_type =>
      match expandPropertyList plist with
      | none => buildSheets m (ordering + 1) rest acc
      | some pls =>
        match addSheets sheet_type level ordering pls acc with
        | none => none
        | some acc2 => buildSheets m (ordering + 1) rest acc2

/-- `Model._update_sheet_spec_parameters`: each sheet's level must have a
registered parameter function (error otherwise); its result is merged
into the spec's parameters. -/
def updateSheetParams (m : ModelDef) :
    List (String × SheetSpec) → Option (List (String × SheetSpec))
  | [] => some []
  | (nm, sp) :: rest =>
    match dictLookup m.sheet_labels (sheetLevel sp) with
    | none => none
    | some fn =>
      match updateSheetParams m rest with
      | none => none
      | some rest2 => some ((nm, sheetUpdate sp (fn sp.properties)) :: rest2)

/-- `MatchConditions.compute_conditions` guarded by the
`has_matchcondition` test of line 628: a destination level absent from
the table contributes no conditions. -/
def conditionsFor (m : ModelDef) (dest : SheetSpec) :
    List (String × Option (List (String × PVal))) :=
  match dictLookup m.matchconditions (sheetLevel dest) with
  | none => []
  | some fns => fns.map (fun mfn => (mfn.1, mfn.2 dest.properties))

/-- Lines 642–651: one `ProjectionSpec` per parameter set, tagged with
its matchname and registered under `(dest name, parameters["name"])`
(`KeyError`, hence `none`, when `name` is missing). -/
def addProjections (ptype : TypeTag) (matchname : String) (src dest : SheetSpec) :
    List (List (String × PVal)) → List ((String × String) × ProjectionSpec) →
    Option (List ((String × String) × ProjectionSpec))
  | [], acc => some acc
  | paramset :: rest, acc =>
    match dictLookup paramset "name" with
    | none => none
    | some nm =>
      addProjections ptype matchname src dest rest
        (pathInsert acc (sheetSpecStr dest, strVal nm)
          { projUpdate (projSpecInit ptype src dest) paramset with
              matchname := matchname })

/-- Lines 633–651: for each matchname whose criteria accept the source,
look up the projection type and parameter function (`KeyError` if
unregistered) and add one projection per produced parameter set. -/
def processConditions (m : ModelDef) (src dest : SheetSpec) :
    List (String × Option (List (String × PVal))) →
    List ((String × String) × ProjectionSpec) →
    Option (List ((String × String) × ProjectionSpec))
  | [], acc => some acc
  | (matchname, mc) :: conds, acc =>
    if matchconditionHolds mc src then
      match dictLookup m.projection_types matchname,
            dictLookup m.projection_labels matchname with
      | some ptype, some pfn =>
        match addProjections ptype matchname src dest
            (normalizeParamRet (pfn src.properties dest.properties)) acc with
        | none => none
        | some acc2 => processConditions m src dest conds acc2
      | _, _ => none
    else processConditions m src dest conds acc

def processPairs (m : ModelDef) :
    List (SheetSpec × SheetSpec) →
    List ((String × String) × ProjectionSpec) →
    Option (List ((String × String) × ProjectionSpec))
  | [], acc => some acc
  | (src, dest) :: rest, acc =>
    match processConditions m src dest (conditionsFor m dest) acc with
    | none => none
    | some acc2 => processPairs m rest acc2

/-- `Model._compute_projection_specs`: the full ordered cross product of
(source, destination) over all sheets, sources in the outer loop,
self-pairs included. -/
def computeProjectionSpecs (m : ModelDef) (sheets : List (String × SheetSpec)) :
    Option (List ((String × String) × ProjectionSpec)) :=
  processPairs m
    (sheets.flatMap (fun s => sheets.map (fun d => (s.2, d.2)))) []

/-- The sheets stage followed by the projections stage of
`Model.setup`. -/
def setupFull (m : ModelDef) :
    Option (List (String × SheetSpec) × List ((String × String) × ProjectionSpec)) :=
  match buildSheets m 0 m.sheet_properties [] with
  | none => none
  | some sheets0 =>
    match updateSheetParams m sheets0 with
    | none => none
    | some sheets =>
      match computeProjectionSpecs m sheets with
      | none => none
      | some projs => some (sheets, projs)

end ModelSetup

/-- The projection parameter function of the test model: a `name`
parameter distinct per source (`Aff` followed by the source sheet's
property string). -/
def v1AffName (srcProps : List (String × PVal)) : PVal :=
  PVal.s ("Aff" ++ srcProps.foldl (fun acc kv => acc ++ strVal kv.2) "")

/-- The concrete model of claim C3: `setup_sheets` returns
`{"Retina": [{}], "V1": [{"SF": 1}, {"SF": 2}]}`, only level `V1` has a
matchcondition and it unconditionally accepts every source (criteria
`{}`), and the projection parameter function supplies distinct `name`
values per source. -/
def c3model : ModelDef :=
  { sheet_properties :=
      [("Retina", PropList.explicit [[]]),
       ("V1", PropList.explicit [[("SF", PVal.i 1)], [("SF", PVal.i 2)]])]
    sheet_types := [("Retina", plainSheetType), ("V1", plainSheetType)]
    sheet_labels := [("Retina", fun _ => []), ("V1", fun _ => [])]
    matchconditions := [("V1", [("V1_afferent", fun _ => some [])])]
    projection_types := [("V1_afferent", plainProjType)]
    projection_labels :=
      [("V1_afferent", fun srcProps _ => ParamRet.single [("name", v1AffName srcProps)])] }

/-- C3: end-to-end, the sheets stage yields sheets `Retina`, `V11`,
`V12` (level then SF, canonically concatenated), and the projections
stage yields exactly 6 projections, all landing on the two V1 sheets
(none on `Retina`), including the two V1 self-pairs, registered under 6
distinct paths. -/
theorem model_setup_end_to_end :
    ∃ sheets projs, setupFull c3model = some (sheets, projs) ∧
      sheets.map Prod.fst = ["Retina", "V11", "V12"] ∧
      projs.length = 6 ∧
      projs.map Prod.fst =
        [("V11", "AffRetina"), ("V12", "AffRetina"),
         ("V11", "AffV11"), ("V12", "AffV11"),
         ("V11", "AffV12"), ("V12", "AffV12")] ∧
      (projs.map Prod.fst).Nodup ∧
      (∀ pp ∈ projs,
        sheetSpecStr pp.2.dest = "V11" ∨ sheetSpecStr pp.2.dest = "V12") ∧
      (projs.filter (fun pp => sheetSpecStr pp.2.dest == "Retina")).length = 0 ∧
      (projs.map (fun pp => (sheetSpecStr pp.2.src, sheetSpecStr pp.2.dest))) =
        [("Retina", "V11"), ("Retina", "V12"), ("V11", "V11"),
         ("V11", "V12"), ("V12", "V11"), ("V12", "V12")] := by
  refine ⟨_, _, rfl, ?_, ?_, ?_, ?_, ?_, ?_, ?_⟩ <;> decide

end TopoSubmodel
